import Mathlib

/-!
Verification of the tree-reduction core of `scrapy_tilda_site.py`: the
recursive reducer `process_node` and the whitespace normalizer `minify_html`.
Strings are modelled as Lean `String`s; Python's whitespace class and
`str.strip` are modelled explicitly.
-/

namespace TildaSite

/-- The set of characters Python classifies as whitespace (used by both
`str.strip()` and the regex class `\s` on `str` patterns): the ASCII
whitespace characters together with the Unicode space-classified ones. -/
def pyIsSpace (c : Char) : Bool :=
  c = ' ' || c = '\t' || c = '\n' || c = '\u000b' || c = '\u000c' || c = '\r' ||
  c = '\u001c' || c = '\u001d' || c = '\u001e' || c = '\u001f' ||
  c = '\u0085' || c = ' ' || c = ' ' ||
  ((' ' : Char) ≤ c && c ≤ (' ' : Char)) ||
  c = ' ' || c = ' ' || c = ' ' || c = ' ' || c = '　'

/-- Drop trailing whitespace characters from a character list. -/
def dropTrail (l : List Char) : List Char :=
  (l.reverse.dropWhile pyIsSpace).reverse

/-- Drop leading and trailing whitespace characters (Python `str.strip()`). -/
def stripChars (l : List Char) : List Char :=
  dropTrail (l.dropWhile pyIsSpace)

/-- Python `str.strip()` on strings. -/
def pyStrip (s : String) : String :=
  String.mk (stripChars s.data)

/-- ASCII lower-casing of a character (Python `str.lower()` restricted to
the ASCII range, the only one exercised by the tag and attribute names). -/
def lowerChar (c : Char) : Char :=
  if 'A' ≤ c && c ≤ 'Z' then Char.ofNat (c.toNat + 32) else c

/-- Python `str.lower()`. -/
def pyLower (s : String) : String :=
  String.mk (s.data.map lowerChar)

/-- A parsed markup node: comment, text, named element (with ordered
attributes and ordered children), or a node without a recognized name. -/
inductive Node where
  | comment (s : String)
  | text (s : String)
  | element (name : String) (attrs : List (String × String)) (children : List Node)
  | other

/-- `IGNORE_TAGS` from the source: tags whose whole subtree is discarded. -/
def IGNORE_TAGS : List String :=
  ["script", "style", "noscript", "iframe", "input", "img", "link"]

/-- The allow-set from the source: tags whose wrapper is preserved. -/
def allowed_wrap : List String :=
  ["html", "head", "body", "div", "span", "p",
   "h1", "h2", "h3", "h4", "h5", "h6",
   "li", "ul", "ol", "a", "button", "nav", "form"]

/-- `node.get(key, "")`: the value of the first attribute named `key`,
or the empty string when absent. -/
def getAttr (attrs : List (String × String)) (key : String) : String :=
  match attrs.find? (fun p => p.fst = key) with
  | some p => p.snd
  | none => ""

mutual

/-- Embedding of `process_node` from `scrapy_tilda_site.py`. -/
def process_node : Node → String
  | .comment _ => ""
  | .text s => pyStrip s
  | .other => ""
  | .element name attrs children =>
    let tag := pyLower name
    if tag ∈ IGNORE_TAGS then ""
    else if tag = "meta" then
      let name_attr := pyLower (getAttr attrs "name")
      let prop_attr := pyLower (getAttr attrs "property")
      if name_attr = "description" || prop_attr = "og:description" then
        let content := pyStrip (getAttr attrs "content")
        if content ≠ "" then "<Description>" ++ content ++ "</Description>"
        else ""
      else ""
    else if tag = "title" then
      let content := pyStrip (process_children children)
      if content ≠ "" then "<Title>" ++ content ++ "</Title>" else ""
    else
      let children_content := pyStrip (process_children children)
      if children_content = "" then ""
      else if tag ∈ allowed_wrap then
        "<" ++ tag ++ ">" ++ children_content ++ "</" ++ tag ++ ">"
      else children_content

/-- `"".join(process_node(child) for child in node.children)`. -/
def process_children : List Node → String
  | [] => ""
  | c :: cs => process_node c ++ process_children cs

end

/-- Collapse each maximal run of whitespace into a single space
(embedding of `re.sub(r'\s+', ' ', ·)`). -/
def collapse : List Char → List Char
  | [] => []
  | [c] => if pyIsSpace c then [' '] else [c]
  | c :: c2 :: rest =>
    if pyIsSpace c && pyIsSpace c2 then collapse (c2 :: rest)
    else (if pyIsSpace c then ' ' else c) :: collapse (c2 :: rest)

/-- Embedding of `minify_html` from the source. -/
def minify_html (s : String) : String :=
  String.mk (stripChars (collapse s.data))

/-- Fuel-bounded worker for `words`; the fuel is instantiated with the
length of the list, which always suffices. -/
def wordsF : Nat → List Char → List (List Char)
  | _, [] => []
  | 0, _ :: _ => []
  | Nat.succ fuel, c :: rest =>
    if pyIsSpace c then wordsF fuel rest
    else (c :: rest.takeWhile (fun d => !pyIsSpace d)) ::
      wordsF fuel (rest.dropWhile (fun d => !pyIsSpace d))

/-- Specification view of whitespace normalization: the maximal runs of
non-whitespace characters ("words") of a list, in order.  Replacing every
maximal whitespace run by one space and trimming is the same as joining
these words with single spaces. -/
def words (l : List Char) : List (List Char) := wordsF l.length l

/-- Join a list of words with single spaces between consecutive words. -/
def joinWords : List (List Char) → List Char
  | [] => []
  | [w] => w
  | w :: w2 :: ws => w ++ ' ' :: joinWords (w2 :: ws)

/-- Concatenation of a list of strings, in order (`"".join`). -/
def joinStrs : List String → String
  | [] => ""
  | s :: t => s ++ joinStrs t

mutual

/-- Recursion depth the reducer needs below a node. -/
def heightN : Node → Nat
  | .comment _ => 1
  | .text _ => 1
  | .other => 1
  | .element _ _ children => heightL children + 1

/-- Maximal height of a list of nodes. -/
def heightL : List Node → Nat
  | [] => 0
  | c :: cs => max (heightN c) (heightL cs)

end

/-- Fuel-bounded version of `process_node`: `none` models running out of
recursion budget, any other outcome is `some` (the reducer cannot fail). -/
def fuelReduce : Nat → Node → Option String
  | 0, _ => none
  | Nat.succ fuel, n =>
    match n with
    | .comment _ => some ""
    | .text s => some (pyStrip s)
    | .other => some ""
    | .element name attrs children =>
      let tag := pyLower name
      if tag ∈ IGNORE_TAGS then some ""
      else if tag = "meta" then
        let name_attr := pyLower (getAttr attrs "name")
        let prop_attr := pyLower (getAttr attrs "property")
        if name_attr = "description" || prop_attr = "og:description" then
          let content := pyStrip (getAttr attrs "content")
          if content ≠ "" then
            some ("<Description>" ++ content ++ "</Description>")
          else some ""
        else some ""
      else if tag = "title" then
        match children.mapM (fuelReduce fuel) with
        | none => none
        | some rs =>
          let content := pyStrip (joinStrs rs)
          some (if content ≠ "" then "<Title>" ++ content ++ "</Title>"
            else "")
      else
        match children.mapM (fuelReduce fuel) with
        | none => none
        | some rs =>
          let children_content := pyStrip (joinStrs rs)
          if children_content = "" then some ""
          else if tag ∈ allowed_wrap then
            some ("<" ++ tag ++ ">" ++ children_content ++ "</" ++ tag ++ ">")
          else some children_content

/-! ### Lemmas about trimming -/

lemma head?_dropWhile_ws :
    ∀ (l : List Char) {c : Char},
      (l.dropWhile pyIsSpace).head? = some c → pyIsSpace c = false
  | [], c, h => by simp at h
  | a :: t, c, h => by
    rw [List.dropWhile_cons] at h
    split at h
    · exact head?_dropWhile_ws t h
    · next ha =>
      simp only [List.head?_cons, Option.some.injEq] at h
      subst h
      simpa using ha

lemma getLast?_dropTrail (l : List Char) {c : Char}
    (h : (dropTrail l).getLast? = some c) : pyIsSpace c = false := by
  unfold dropTrail at h
  rw [List.getLast?_reverse] at h
  exact head?_dropWhile_ws _ h

lemma dropTrail_append_eq (l : List Char) :
    l = dropTrail l ++ (l.reverse.takeWhile pyIsSpace).reverse := by
  unfold dropTrail
  conv_lhs => rw [← l.reverse_reverse,
    ← List.takeWhile_append_dropWhile pyIsSpace l.reverse]
  rw [List.reverse_append]

lemma head?_dropTrail (l : List Char) {c : Char}
    (h : (dropTrail l).head? = some c) : l.head? = some c := by
  conv_lhs => rw [dropTrail_append_eq l]
  rw [List.head?_append, h]
  rfl

lemma head?_stripChars {l : List Char} {c : Char}
    (h : (stripChars l).head? = some c) : pyIsSpace c = false :=
  head?_dropWhile_ws _ (head?_dropTrail _ h)

lemma getLast?_stripChars {l : List Char} {c : Char}
    (h : (stripChars l).getLast? = some c) : pyIsSpace c = false :=
  getLast?_dropTrail _ h

lemma dropWhile_ws_eq_self {l : List Char}
    (h : ∀ c, l.head? = some c → pyIsSpace c = false) :
    l.dropWhile pyIsSpace = l := by
  cases l with
  | nil => rfl
  | cons a t => rw [List.dropWhile_cons, if_neg]; simp [h a rfl]

lemma dropTrail_eq_self {l : List Char}
    (h : ∀ c, l.getLast? = some c → pyIsSpace c = false) : dropTrail l = l := by
  unfold dropTrail
  rw [dropWhile_ws_eq_self, List.reverse_reverse]
  intro c hc
  exact h c (by rwa [List.head?_reverse] at hc)

lemma stripChars_eq_self {l : List Char}
    (h1 : ∀ c, l.head? = some c → pyIsSpace c = false)
    (h2 : ∀ c, l.getLast? = some c → pyIsSpace c = false) :
    stripChars l = l := by
  unfold stripChars
  rw [dropWhile_ws_eq_self h1, dropTrail_eq_self h2]

lemma stripChars_idem (l : List Char) :
    stripChars (stripChars l) = stripChars l :=
  stripChars_eq_self (fun _ h => head?_stripChars h)
    (fun _ h => getLast?_stripChars h)

lemma stripChars_append {a b : List Char}
    (ha : stripChars a = a) (hb : stripChars b = b) :
    stripChars (a ++ b) = a ++ b := by
  apply stripChars_eq_self
  · intro c hc
    rw [List.head?_append] at hc
    cases h1 : a.head? with
    | none =>
      rw [h1, Option.none_or] at hc
      exact head?_stripChars (l := b) (by rw [hb]; exact hc)
    | some d =>
      rw [h1, Option.or_some, Option.some.injEq] at hc
      subst hc
      exact head?_stripChars (l := a) (by rw [ha]; exact h1)
  · intro c hc
    rw [List.getLast?_append] at hc
    cases h1 : b.getLast? with
    | none =>
      rw [h1, Option.none_or] at hc
      exact getLast?_stripChars (l := a) (by rw [ha]; exact hc)
    | some d =>
      rw [h1, Option.or_some, Option.some.injEq] at hc
      subst hc
      exact getLast?_stripChars (l := b) (by rw [hb]; exact h1)

/-! ### String-level trimming lemmas -/

lemma pyStrip_data (s : String) : (pyStrip s).data = stripChars s.data := rfl

lemma pyStrip_eq_self_of_edges {s : String}
    (h1 : ∀ c, s.data.head? = some c → pyIsSpace c = false)
    (h2 : ∀ c, s.data.getLast? = some c → pyIsSpace c = false) :
    pyStrip s = s := by
  apply String.ext
  rw [pyStrip_data, stripChars_eq_self h1 h2]

lemma pyStrip_idem (s : String) : pyStrip (pyStrip s) = pyStrip s := by
  apply String.ext
  rw [pyStrip_data, pyStrip_data, stripChars_idem]

lemma pyStrip_append {a b : String}
    (ha : pyStrip a = a) (hb : pyStrip b = b) :
    pyStrip (a ++ b) = a ++ b := by
  apply String.ext
  rw [pyStrip_data, String.data_append]
  exact stripChars_append (by rw [← pyStrip_data, ha]) (by rw [← pyStrip_data, hb])

/-- A string starting and ending with a non-whitespace character is fixed
by `pyStrip`; the wrapped outputs of the reducer are of the shape
`pre ++ mid ++ post` with non-whitespace literal edges. -/
lemma pyStrip_wrap {pre post : String} (mid : String) {c d : Char}
    (hpre : pre.data.head? = some c) (hc : pyIsSpace c = false)
    (hpost : post.data.getLast? = some d) (hd : pyIsSpace d = false) :
    pyStrip (pre ++ mid ++ post) = pre ++ mid ++ post := by
  apply pyStrip_eq_self_of_edges
  · intro e he
    rw [String.data_append, String.data_append, List.head?_append,
      List.head?_append, hpre, Option.or_some, Option.or_some,
      Option.some.injEq] at he
    subst he
    exact hc
  · intro e he
    rw [String.data_append, List.getLast?_append, hpost, Option.or_some,
      Option.some.injEq] at he
    subst he
    exact hd

lemma pyStrip_empty : pyStrip "" = "" := rfl

/-- The generic wrapper `<tag>…</tag>` built by the reducer is trimmed. -/
lemma pyStrip_tag_wrap (tag cc : String) :
    pyStrip ("<" ++ tag ++ ">" ++ cc ++ "</" ++ tag ++ ">") =
      "<" ++ tag ++ ">" ++ cc ++ "</" ++ tag ++ ">" := by
  apply pyStrip_eq_self_of_edges
  · intro e he
    simp only [String.data_append, List.head?_append] at he
    rw [show ("<" : String).data.head? = some '<' from rfl] at he
    simp only [Option.or_some, Option.some.injEq] at he
    subst he
    decide
  · intro e he
    rw [String.data_append, List.getLast?_append,
      show (">" : String).data.getLast? = some '>' from rfl,
      Option.or_some, Option.some.injEq] at he
    subst he
    decide

mutual

/-- Every value `process_node` returns is already trimmed. -/
theorem pyStrip_process_node :
    ∀ (n : Node), pyStrip (process_node n) = process_node n
  | .comment _ => pyStrip_empty
  | .text s => pyStrip_idem s
  | .other => pyStrip_empty
  | .element name attrs children => by
    simp only [process_node]
    split_ifs
    · exact pyStrip_empty
    · exact pyStrip_wrap _ (c := '<') (d := '>') rfl (by decide) rfl (by decide)
    · exact pyStrip_empty
    · exact pyStrip_empty
    · exact pyStrip_wrap _ (c := '<') (d := '>') rfl (by decide) rfl (by decide)
    · exact pyStrip_empty
    · exact pyStrip_empty
    · exact pyStrip_tag_wrap _ _
    · exact pyStrip_idem (process_children children)

/-- The concatenation of the reduced children is already trimmed. -/
theorem pyStrip_process_children :
    ∀ (l : List Node), pyStrip (process_children l) = process_children l
  | [] => pyStrip_empty
  | c :: cs => by
    simp only [process_children]
    exact pyStrip_append (pyStrip_process_node c) (pyStrip_process_children cs)

end

/-! ### Words: the specification view of `minify_html` -/

lemma wordsF_congr :
    ∀ (f g : Nat) (l : List Char), l.length ≤ f → l.length ≤ g →
      wordsF f l = wordsF g l
  | f, g, [], _, _ => by cases f <;> cases g <;> rfl
  | Nat.succ f, Nat.succ g, c :: rest, hf, hg => by
    have hf' : rest.length ≤ f := Nat.lt_succ_iff.mp hf
    have hg' : rest.length ≤ g := Nat.lt_succ_iff.mp hg
    have hd : (rest.dropWhile (fun d => !pyIsSpace d)).length ≤ rest.length :=
      (List.dropWhile_sublist _).length_le
    simp only [wordsF]
    rw [wordsF_congr f g rest hf' hg',
      wordsF_congr f g (rest.dropWhile (fun d => !pyIsSpace d))
        (le_trans hd hf') (le_trans hd hg')]

lemma words_nil : words [] = [] := rfl

lemma words_cons_ws {c : Char} {rest : List Char} (h : pyIsSpace c = true) :
    words (c :: rest) = words rest := by
  unfold words
  rw [List.length_cons]
  simp only [wordsF, h, if_true]

lemma words_cons_nonws {c : Char} {rest : List Char} (h : pyIsSpace c = false) :
    words (c :: rest) =
      (c :: rest.takeWhile (fun d => !pyIsSpace d)) ::
        words (rest.dropWhile (fun d => !pyIsSpace d)) := by
  unfold words
  rw [List.length_cons]
  simp only [wordsF, h, if_false]
  rw [wordsF_congr rest.length _ _ ((List.dropWhile_sublist _).length_le)
    le_rfl]
  simp

lemma head?_dropWhile_false {p : Char → Bool} :
    ∀ (l : List Char) {c : Char}, (l.dropWhile p).head? = some c → p c = false
  | [], c, h => by simp at h
  | a :: t, c, h => by
    rw [List.dropWhile_cons] at h
    split at h
    · exact head?_dropWhile_false t h
    · next ha =>
      simp only [List.head?_cons, Option.some.injEq] at h
      subst h
      simpa using ha

lemma words_dropWhile_ws (l : List Char) :
    words (l.dropWhile pyIsSpace) = words l := by
  induction l with
  | nil => rfl
  | cons a t ih =>
    cases h : pyIsSpace a with
    | true => rw [List.dropWhile_cons, if_pos h, ih, words_cons_ws h]
    | false => rw [List.dropWhile_cons, if_neg (by simp [h])]

lemma collapse_cons_nonws {c : Char} (m : List Char) (h : pyIsSpace c = false) :
    collapse (c :: m) = c :: collapse m := by
  cases m with
  | nil => simp [collapse, h]
  | cons c2 r => simp [collapse, h]

lemma collapse_cons_ws :
    ∀ (m : List Char) {c : Char}, pyIsSpace c = true →
      collapse (c :: m) = ' ' :: collapse (m.dropWhile pyIsSpace)
  | [], c, h => by simp [collapse, h]
  | c2 :: r, c, h => by
    cases h2 : pyIsSpace c2 with
    | true =>
      rw [show collapse (c :: c2 :: r) = collapse (c2 :: r) by
            simp [collapse, h, h2],
        collapse_cons_ws r h2, List.dropWhile_cons, if_pos h2]
    | false => simp [collapse, h, h2, List.dropWhile_cons]

lemma collapse_append_nonws :
    ∀ (w m : List Char), (∀ a ∈ w, pyIsSpace a = false) →
      collapse (w ++ m) = w ++ collapse m
  | [], _, _ => rfl
  | a :: w', m, h => by
    rw [List.cons_append, collapse_cons_nonws _ (h a (by simp)),
      collapse_append_nonws w' m (fun b hb => h b (by simp [hb])),
      List.cons_append]

lemma stripChars_space_cons (m : List Char) :
    stripChars (' ' :: m) = stripChars m := by
  unfold stripChars
  rw [List.dropWhile_cons, if_pos (by decide)]

lemma dropTrail_append (u v : List Char) :
    dropTrail (u ++ v) =
      if dropTrail v = [] then dropTrail u else u ++ dropTrail v := by
  unfold dropTrail
  rw [List.reverse_append, List.dropWhile_append]
  by_cases h : v.reverse.dropWhile pyIsSpace = []
  · rw [if_pos (by simp [h]), if_pos (by simp [h])]
  · rw [if_neg (by simp [List.isEmpty_iff, h]), if_neg (by simp [h]),
      List.reverse_append, List.reverse_reverse]

lemma dropTrail_eq_nil_iff {l : List Char} :
    dropTrail l = [] ↔ ∀ a ∈ l, pyIsSpace a = true := by
  unfold dropTrail
  rw [List.reverse_eq_nil_iff, List.dropWhile_eq_nil_iff]
  constructor
  · intro h a ha
    exact h a (List.mem_reverse.mpr ha)
  · intro h a ha
    exact h a (List.mem_reverse.mp ha)

lemma dropTrail_nonws {l : List Char} (h : ∀ a ∈ l, pyIsSpace a = false) :
    dropTrail l = l :=
  dropTrail_eq_self (fun c hc => h c (List.mem_of_mem_getLast? hc))

lemma stripChars_nonws {l : List Char} (h : ∀ a ∈ l, pyIsSpace a = false) :
    stripChars l = l :=
  stripChars_eq_self (fun c hc => h c (List.mem_of_mem_head? hc))
    (fun c hc => h c (List.mem_of_mem_getLast? hc))

lemma stripChars_cons_nonws_head {c : Char} (m : List Char)
    (h : pyIsSpace c = false) :
    stripChars (c :: m) = dropTrail (c :: m) := by
  unfold stripChars
  rw [List.dropWhile_cons, if_neg (by simp [h])]

/-- Normalizing whitespace agrees with joining the maximal non-whitespace
runs by single spaces. -/
theorem minifyChars_eq_joinWords : ∀ l : List Char,
    stripChars (collapse l) = joinWords (words l)
  | [] => rfl
  | c :: rest => by
    cases hc : pyIsSpace c with
    | true =>
      rw [collapse_cons_ws rest hc, stripChars_space_cons,
        minifyChars_eq_joinWords (rest.dropWhile pyIsSpace),
        words_dropWhile_ws, words_cons_ws hc]
    | false =>
      have hrest := List.takeWhile_append_dropWhile (fun d => !pyIsSpace d) rest
      have ht : ∀ a ∈ c :: rest.takeWhile (fun d => !pyIsSpace d),
          pyIsSpace a = false := by
        intro a ha
        rcases List.mem_cons.mp ha with h1 | h1
        · subst h1; exact hc
        · simpa using List.mem_takeWhile_imp h1
      rw [words_cons_nonws hc,
        show c :: rest =
            (c :: rest.takeWhile (fun d => !pyIsSpace d)) ++
              rest.dropWhile (fun d => !pyIsSpace d) from
          (by rw [List.cons_append, hrest]),
        collapse_append_nonws _ _ ht]
      cases hD : rest.dropWhile (fun d => !pyIsSpace d) with
      | nil =>
        rw [show collapse [] = [] from rfl, List.append_nil, words_nil,
          stripChars_nonws ht]
        rfl
      | cons e d2 =>
        have he : pyIsSpace e = true := by
          have := head?_dropWhile_false (p := fun d => !pyIsSpace d) rest
            (c := e) (by rw [hD]; rfl)
          simpa using this
        rw [collapse_cons_ws d2 he, words_cons_ws he, ← words_dropWhile_ws d2]
        cases h0 : d2.dropWhile pyIsSpace with
        | nil =>
          rw [show collapse [] = [] from rfl, words_nil]
          rw [show (c :: rest.takeWhile (fun d => !pyIsSpace d)) ++ [' '] =
              c :: (rest.takeWhile (fun d => !pyIsSpace d) ++ [' ']) from
            List.cons_append _ _ _]
          rw [stripChars_cons_nonws_head _ hc,
            show c :: (rest.takeWhile (fun d => !pyIsSpace d) ++ [' ']) =
                (c :: rest.takeWhile (fun d => !pyIsSpace d)) ++ [' '] from
              (List.cons_append _ _ _).symm,
            dropTrail_append, if_pos (by decide), dropTrail_nonws ht]
          rfl
        | cons f d3 =>
          have hf : pyIsSpace f = false :=
            head?_dropWhile_ws d2 (c := f) (by rw [h0]; rfl)
          have hcol : collapse (f :: d3) = f :: collapse d3 :=
            collapse_cons_nonws d3 hf
          have hne : dropTrail (collapse (f :: d3)) ≠ [] := by
            intro hnil
            have hws := dropTrail_eq_nil_iff.mp hnil f
              (by rw [hcol]; exact List.mem_cons_self _ _)
            rw [hf] at hws
            simp at hws
          have hstrip : stripChars (collapse (f :: d3)) =
              dropTrail (collapse (f :: d3)) := by
            rw [hcol]; exact stripChars_cons_nonws_head _ hf
          rw [show (c :: rest.takeWhile (fun d => !pyIsSpace d)) ++
                (' ' :: collapse (f :: d3)) =
              c :: (rest.takeWhile (fun d => !pyIsSpace d) ++
                (' ' :: collapse (f :: d3))) from List.cons_append _ _ _,
            stripChars_cons_nonws_head _ hc,
            show c :: (rest.takeWhile (fun d => !pyIsSpace d) ++
                (' ' :: collapse (f :: d3))) =
              ((c :: rest.takeWhile (fun d => !pyIsSpace d)) ++ [' ']) ++
                collapse (f :: d3) from (by simp),
            dropTrail_append, if_neg hne, ← hstrip,
            minifyChars_eq_joinWords (f :: d3)]
          rw [words_cons_nonws hf, List.append_assoc, List.singleton_append]
          rfl
termination_by l => l.length
decreasing_by
  · have h1 : (d2.dropWhile pyIsSpace).length ≤ d2.length :=
      (List.dropWhile_sublist _).length_le
    rw [h0] at h1
    have h2 : (rest.dropWhile (fun d => !pyIsSpace d)).length ≤ rest.length :=
      (List.dropWhile_sublist _).length_le
    rw [hD] at h2
    simp only [List.length_cons] at h1 h2 ⊢
    omega
  · simp only [List.length_cons]
    exact Nat.lt_succ_of_le ((List.dropWhile_sublist _).length_le)

/-- Every word produced by `words` is non-empty and whitespace-free. -/
lemma words_inv : ∀ (l : List Char) {w : List Char}, w ∈ words l →
    w ≠ [] ∧ ∀ a ∈ w, pyIsSpace a = false
  | [], w, hw => by rw [words_nil] at hw; simp at hw
  | c :: rest, w, hw => by
    cases hc : pyIsSpace c with
    | true =>
      rw [words_cons_ws hc] at hw
      exact words_inv rest hw
    | false =>
      rw [words_cons_nonws hc] at hw
      rcases List.mem_cons.mp hw with h1 | h1
      · subst h1
        refine ⟨by simp, ?_⟩
        intro a ha
        rcases List.mem_cons.mp ha with h2 | h2
        · subst h2; exact hc
        · simpa using List.mem_takeWhile_imp h2
      · exact words_inv (rest.dropWhile (fun d => !pyIsSpace d)) h1
termination_by l => l.length
decreasing_by
  · simp only [List.length_cons]
    exact Nat.lt_succ_of_le ((List.dropWhile_sublist _).length_le)
  · simp only [List.length_cons]
    exact Nat.lt_succ_self _

lemma takeWhile_append_of_all {p : Char → Bool} :
    ∀ (t m : List Char), (∀ a ∈ t, p a = true) →
      (t ++ m).takeWhile p = t ++ m.takeWhile p
  | [], m, _ => rfl
  | a :: t', m, h => by
    rw [List.cons_append, List.takeWhile_cons, if_pos (h a (by simp)),
      takeWhile_append_of_all t' m (fun b hb => h b (by simp [hb])),
      List.cons_append]

lemma dropWhile_append_of_all {p : Char → Bool} :
    ∀ (t m : List Char), (∀ a ∈ t, p a = true) →
      (t ++ m).dropWhile p = m.dropWhile p
  | [], m, _ => rfl
  | a :: t', m, h => by
    rw [List.cons_append, List.dropWhile_cons, if_pos (h a (by simp)),
      dropWhile_append_of_all t' m (fun b hb => h b (by simp [hb]))]

/-- `words` recovers exactly the word list from a single-space join of
non-empty whitespace-free words. -/
lemma words_joinWords : ∀ (ws : List (List Char)),
    (∀ w ∈ ws, w ≠ [] ∧ ∀ a ∈ w, pyIsSpace a = false) →
    words (joinWords ws) = ws
  | [], _ => words_nil
  | [w], h => by
    obtain ⟨hne, hnw⟩ := h w (by simp)
    obtain ⟨c, t, rfl⟩ := List.exists_cons_of_ne_nil hne
    show words (c :: t) = [c :: t]
    rw [words_cons_nonws (hnw c (by simp)),
      List.takeWhile_eq_self_iff.mpr
        (fun a ha => by simp [hnw a (by simp [ha])]),
      List.dropWhile_eq_nil_iff.mpr
        (fun a ha => by simp [hnw a (by simp [ha])]),
      words_nil]
  | w :: w2 :: ws, h => by
    obtain ⟨hne, hnw⟩ := h w (by simp)
    obtain ⟨c, t, rfl⟩ := List.exists_cons_of_ne_nil hne
    have IH := words_joinWords (w2 :: ws) (fun u hu => h u (by simp [hu]))
    show words ((c :: t) ++ ' ' :: joinWords (w2 :: ws)) = (c :: t) :: w2 :: ws
    rw [List.cons_append, words_cons_nonws (hnw c (by simp)),
      takeWhile_append_of_all t (' ' :: joinWords (w2 :: ws))
        (fun a ha => by simp [hnw a (by simp [ha])]),
      dropWhile_append_of_all t (' ' :: joinWords (w2 :: ws))
        (fun a ha => by simp [hnw a (by simp [ha])]),
      List.takeWhile_cons, if_neg (by decide),
      List.dropWhile_cons, if_neg (by decide),
      List.append_nil, words_cons_ws (by decide), IH]

/-! ### String-level consequences for `minify_html` -/

lemma minify_data (s : String) :
    (minify_html s).data = stripChars (collapse s.data) := rfl

lemma minify_html_idem (s : String) :
    minify_html (minify_html s) = minify_html s := by
  apply String.ext
  simp only [minify_data]
  rw [minifyChars_eq_joinWords s.data,
    minifyChars_eq_joinWords (joinWords (words s.data)),
    words_joinWords (words s.data) (fun w hw => words_inv s.data hw)]

/-! ### Branch-unfolding lemmas for the reducer -/

lemma process_node_ignore (name : String) (attrs : List (String × String))
    (children : List Node) (h : pyLower name ∈ IGNORE_TAGS) :
    process_node (.element name attrs children) = "" := by
  simp only [process_node]
  rw [if_pos h]

lemma process_node_meta (name : String) (attrs : List (String × String))
    (children : List Node) (h : pyLower name = "meta") :
    process_node (.element name attrs children) =
      (if pyLower (getAttr attrs "name") = "description" ∨
          pyLower (getAttr attrs "property") = "og:description" then
        (if pyStrip (getAttr attrs "content") ≠ "" then
          "<Description>" ++ pyStrip (getAttr attrs "content") ++
            "</Description>"
         else "")
       else "") := by
  simp only [process_node, h]
  rw [if_neg (by decide), if_pos trivial]
  by_cases h1 : pyLower (getAttr attrs "name") = "description" <;>
    by_cases h2 : pyLower (getAttr attrs "property") = "og:description" <;>
    simp [h1, h2]

lemma process_node_title (name : String) (attrs : List (String × String))
    (children : List Node) (h : pyLower name = "title") :
    process_node (.element name attrs children) =
      (if pyStrip (process_children children) ≠ "" then
        "<Title>" ++ pyStrip (process_children children) ++ "</Title>"
       else "") := by
  simp only [process_node, h]
  rw [if_neg (by decide), if_neg (by decide), if_pos trivial]

lemma process_node_generic (name : String) (attrs : List (String × String))
    (children : List Node) (h1 : pyLower name ∉ IGNORE_TAGS)
    (h2 : pyLower name ≠ "meta") (h3 : pyLower name ≠ "title") :
    process_node (.element name attrs children) =
      (if pyStrip (process_children children) = "" then ""
       else if pyLower name ∈ allowed_wrap then
        "<" ++ pyLower name ++ ">" ++ pyStrip (process_children children) ++
          "</" ++ pyLower name ++ ">"
       else pyStrip (process_children children)) := by
  simp only [process_node]
  rw [if_neg h1, if_neg h2, if_neg h3]

/-! ### Concatenation of reduced children -/

lemma joinStrs_map_process (l : List Node) :
    joinStrs (l.map process_node) = process_children l := by
  induction l with
  | nil => rfl
  | cons c cs ih => simp only [List.map_cons, joinStrs, ih, process_children]

/-! ### Fuel-bounded evaluation: termination and totality -/

lemma heightN_pos : ∀ n : Node, 1 ≤ heightN n
  | .comment _ => le_refl 1
  | .text _ => le_refl 1
  | .other => le_refl 1
  | .element _ _ _ => Nat.le_add_left 1 _

lemma heightN_le_heightL : ∀ (l : List Node) (c : Node), c ∈ l →
    heightN c ≤ heightL l
  | [], c, hc => by simp at hc
  | a :: t, c, hc => by
    rcases List.mem_cons.mp hc with h | h
    · subst h
      exact le_max_left _ _
    · exact le_trans (heightN_le_heightL t c h) (le_max_right _ _)

lemma mapM_fuelReduce {fuel : Nat} :
    ∀ (l : List Node), (∀ n ∈ l, fuelReduce fuel n = some (process_node n)) →
      l.mapM (fuelReduce fuel) = some (l.map process_node)
  | [], _ => rfl
  | c :: cs, h => by
    rw [List.mapM_cons, h c (by simp),
      mapM_fuelReduce cs (fun n hn => h n (by simp [hn]))]
    rfl

/-- With fuel at least the node's height, the fuel-bounded reducer
terminates with exactly the value of `process_node`. -/
lemma fuelReduce_eq : ∀ (fuel : Nat) (n : Node), heightN n ≤ fuel →
    fuelReduce fuel n = some (process_node n)
  | 0, n, h => absurd (le_trans (heightN_pos n) h) (by simp)
  | Nat.succ fuel, .comment _, _ => rfl
  | Nat.succ fuel, .text _, _ => rfl
  | Nat.succ fuel, .other, _ => rfl
  | Nat.succ fuel, .element name attrs children, h => by
    have hb : heightL children ≤ fuel := by
      simp only [heightN] at h
      omega
    have hkids : ∀ c ∈ children, fuelReduce fuel c = some (process_node c) :=
      fun c hc =>
        fuelReduce_eq fuel c (le_trans (heightN_le_heightL children c hc) hb)
    simp only [fuelReduce, process_node, mapM_fuelReduce children hkids,
      joinStrs_map_process]
    split_ifs <;> rfl

/-- `node.get(key, "")` falls back to the empty string when the key is
absent from the attribute list. -/
lemma getAttr_absent {attrs : List (String × String)} {key : String}
    (h : ∀ p ∈ attrs, p.fst ≠ key) : getAttr attrs key = "" := by
  unfold getAttr
  rw [List.find?_eq_none.mpr (fun p hp => by simp [h p hp])]

/-- Every tag in the allow-set is outside the ignore-set and is neither
`meta` nor `title`. -/
lemma allowed_wrap_cases :
    ∀ t ∈ allowed_wrap, t ∉ IGNORE_TAGS ∧ t ≠ "meta" ∧ t ≠ "title" := by
  decide

/-! ### Claim theorems -/

/-- C1: a `meta` element whose lower-cased `name` attribute is
`description`, or whose lower-cased `property` attribute is
`og:description`, reduces to `<Description>` + trimmed `content` +
`</Description>` when the trimmed content is non-empty and to the empty
string otherwise; a non-matching `meta` reduces to the empty string, and
the children of a `meta` element are never recursed into.  The two spec
examples hold. -/
theorem meta_description_reduce (name : String)
    (attrs : List (String × String)) (children : List Node)
    (h : pyLower name = "meta") :
    ((pyLower (getAttr attrs "name") = "description" ∨
        pyLower (getAttr attrs "property") = "og:description") →
      process_node (.element name attrs children) =
        (if pyStrip (getAttr attrs "content") ≠ "" then
          "<Description>" ++ pyStrip (getAttr attrs "content") ++
            "</Description>"
         else "")) ∧
    (¬(pyLower (getAttr attrs "name") = "description" ∨
        pyLower (getAttr attrs "property") = "og:description") →
      process_node (.element name attrs children) = "") ∧
    (∀ children2, process_node (.element name attrs children) =
      process_node (.element name attrs children2)) ∧
    process_node (.element "meta"
      [("name", "description"), ("content", "  Hello world  ")] []) =
      "<Description>Hello world</Description>" ∧
    process_node (.element "meta"
      [("name", "keywords"), ("content", "X")] []) = "" := by
  refine ⟨?_, ?_, ?_, by decide, by decide⟩
  · intro hor
    rw [process_node_meta name attrs children h, if_pos hor]
  · intro hnor
    rw [process_node_meta name attrs children h, if_neg hnor]
  · intro children2
    rw [process_node_meta name attrs children h,
      process_node_meta name attrs children2 h]

/-- Witness for the C1 theorem at a concrete matching `meta` element. -/
theorem meta_description_reduce_witness :
    process_node (.element "meta"
      [("name", "description"), ("content", " X ")] [.other]) =
      (if pyStrip (getAttr [("name", "description"), ("content", " X ")]
          "content") ≠ "" then
        "<Description>" ++
          pyStrip (getAttr [("name", "description"), ("content", " X ")]
            "content") ++ "</Description>"
       else "") :=
  (meta_description_reduce "meta"
    [("name", "description"), ("content", " X ")] [.other]
    (by decide)).1 (Or.inl (by decide))

/-- C2: an element that is neither ignored nor `meta` nor `title` reduces
to the trimmed concatenation `c` of its reduced children: to the empty
string when `c` is empty, to `<tag>c</tag>` when the tag is in the
allow-set, and to `c` alone (transparent element) otherwise; the
`div`/`p`/`span` example holds. -/
theorem generic_element_reduce (name : String)
    (attrs : List (String × String)) (children : List Node)
    (h1 : pyLower name ∉ IGNORE_TAGS) (h2 : pyLower name ≠ "meta")
    (h3 : pyLower name ≠ "title") :
    (pyStrip (process_children children) = "" →
      process_node (.element name attrs children) = "") ∧
    (pyStrip (process_children children) ≠ "" →
      pyLower name ∈ allowed_wrap →
      process_node (.element name attrs children) =
        "<" ++ pyLower name ++ ">" ++ pyStrip (process_children children) ++
          "</" ++ pyLower name ++ ">") ∧
    (pyStrip (process_children children) ≠ "" →
      pyLower name ∉ allowed_wrap →
      process_node (.element name attrs children) =
        pyStrip (process_children children)) ∧
    process_node (.element "div" []
      [.element "p" [] [.text "Hi"], .element "span" [] [.text "  "]]) =
      "<div><p>Hi</p></div>" := by
  refine ⟨?_, ?_, ?_, by decide⟩
  · intro hcc
    rw [process_node_generic name attrs children h1 h2 h3, if_pos hcc]
  · intro hcc hal
    rw [process_node_generic name attrs children h1 h2 h3, if_neg hcc,
      if_pos hal]
  · intro hcc hal
    rw [process_node_generic name attrs children h1 h2 h3, if_neg hcc,
      if_neg hal]

/-- Witness for the C2 theorem at the `div`/`p`/`span` example. -/
theorem generic_element_reduce_witness :
    process_node (.element "div" []
      [.element "p" [] [.text "Hi"], .element "span" [] [.text "  "]]) =
      "<div><p>Hi</p></div>" :=
  (generic_element_reduce "div" []
    [.element "p" [] [.text "Hi"], .element "span" [] [.text "  "]]
    (by decide) (by decide) (by decide)).2.2.2

/-- C3: an element whose lower-cased tag name is in the ignore-set
reduces to the empty string whatever its attributes and children are, and
the children never influence the output; the `div`-around-`script`
example holds. -/
theorem ignore_set_reduce (name : String) (attrs : List (String × String))
    (children : List Node) (h : pyLower name ∈ IGNORE_TAGS) :
    process_node (.element name attrs children) = "" ∧
    (∀ (attrs2 : List (String × String)) (children2 : List Node),
      process_node (.element name attrs children) =
        process_node (.element name attrs2 children2)) ∧
    process_node (.element "div" [] [.element "script" [] [.text "ignored"]]) =
      "" := by
  refine ⟨process_node_ignore name attrs children h, ?_, by decide⟩
  intro attrs2 children2
  rw [process_node_ignore name attrs children h,
    process_node_ignore name attrs2 children2 h]

/-- Witness for the C3 theorem at a `script` element with children. -/
theorem ignore_set_reduce_witness :
    process_node (.element "script" [("type", "text/javascript")]
      [.text "var x = 1;"]) = "" :=
  (ignore_set_reduce "script" [("type", "text/javascript")]
    [.text "var x = 1;"] (by decide)).1

/-- C4: a `title` element reduces its children in document order,
concatenates and trims the result, and wraps it in `<Title>…</Title>`
when non-empty, returning the empty string otherwise; the
`<title> A <b>B</b> </title>` example holds. -/
theorem title_reduce (name : String) (attrs : List (String × String))
    (children : List Node) (h : pyLower name = "title") :
    (pyStrip (process_children children) ≠ "" →
      process_node (.element name attrs children) =
        "<Title>" ++ pyStrip (process_children children) ++ "</Title>") ∧
    (pyStrip (process_children children) = "" →
      process_node (.element name attrs children) = "") ∧
    process_node (.element "title" []
      [.text " A ", .element "b" [] [.text "B"], .text " "]) =
      "<Title>AB</Title>" := by
  refine ⟨?_, ?_, by decide⟩
  · intro hcc
    rw [process_node_title name attrs children h, if_pos hcc]
  · intro hcc
    rw [process_node_title name attrs children h,
      if_neg (fun hn => hn hcc)]

/-- Witness for the C4 theorem at the spec's `title` example. -/
theorem title_reduce_witness :
    process_node (.element "title" []
      [.text " A ", .element "b" [] [.text "B"], .text " "]) =
      "<Title>AB</Title>" :=
  (title_reduce "title" []
    [.text " A ", .element "b" [] [.text "B"], .text " "] (by decide)).2.2

/-- C5: a comment node always reduces to the empty string (even when its
character data trims to something non-empty, i.e. the comment rule takes
precedence over the text rule), and a text node reduces to its trimmed
character data, which is the empty string when the trim is empty. -/
theorem comment_text_reduce :
    (∀ s, process_node (.comment s) = "") ∧
    (∀ s, process_node (.text s) = pyStrip s) ∧
    (∀ s, pyStrip s = "" → process_node (.text s) = "") ∧
    (∀ s, pyStrip s ≠ "" → process_node (.comment s) = "") :=
  ⟨fun _ => rfl, fun _ => rfl,
   fun s h => by rw [show process_node (.text s) = pyStrip s from rfl, h],
   fun _ _ => rfl⟩

/-- Witness for the C5 theorem: a blank text node and a comment with
non-blank data. -/
theorem comment_text_reduce_witness :
    process_node (.text " \t ") = "" ∧ process_node (.comment " x ") = "" :=
  ⟨comment_text_reduce.2.2.1 " \t " (by decide),
   comment_text_reduce.2.2.2 " x " (by decide)⟩

/-- C6: `minify_html` joins the maximal non-whitespace runs of its input
with single spaces (i.e. it replaces every maximal whitespace run by one
space and trims the ends), it is idempotent, and the spec's example
holds. -/
theorem minify_normalizes :
    (∀ s : String, (minify_html s).data = joinWords (words s.data)) ∧
    (∀ s : String, minify_html (minify_html s) = minify_html s) ∧
    minify_html " a \n\n b \t c " = "a b c" :=
  ⟨fun s => minifyChars_eq_joinWords s.data, minify_html_idem, by decide⟩

/-- C7: the reducer is total and never fails: with fuel at least the
node's height, the fuel-bounded evaluator terminates with `some` of the
value of `process_node`; an absent attribute falls back to the empty
string; a node without a recognized name reduces to the empty string. -/
theorem reduce_total :
    (∀ (n : Node) (fuel : Nat), heightN n ≤ fuel →
      fuelReduce fuel n = some (process_node n)) ∧
    (∀ (attrs : List (String × String)) (key : String),
      (∀ p ∈ attrs, p.fst ≠ key) → getAttr attrs key = "") ∧
    process_node .other = "" :=
  ⟨fun n fuel h => fuelReduce_eq fuel n h,
   fun _ _ h => getAttr_absent h, rfl⟩

/-- Witness for the C7 theorem: a concrete node evaluated with its
height as fuel, and an attribute lookup missing its key. -/
theorem reduce_total_witness :
    fuelReduce 2 (.element "p" [] [.text "hi"]) =
      some (process_node (.element "p" [] [.text "hi"])) ∧
    getAttr [("href", "u")] "content" = "" :=
  ⟨reduce_total.1 (.element "p" [] [.text "hi"]) 2 (by decide),
   reduce_total.2.1 [("href", "u")] "content" (by decide)⟩

/-- C8: the reduced children are concatenated in document order, and a
wrapper element over `[text1, elementA, text2]` whose concatenated
reduction is non-empty produces exactly the wrapper applied to
`reduce(text1) ++ reduce(elementA) ++ reduce(text2)`, with no reordering
or separators. -/
theorem ordering_preserved :
    (∀ ns : List Node, process_children ns = joinStrs (ns.map process_node)) ∧
    (∀ (name : String) (attrs : List (String × String)) (t1 en : String)
        (ea : List (String × String)) (ec : List Node) (t2 : String),
      pyLower name ∈ allowed_wrap →
      process_node (.text t1) ++ process_node (.element en ea ec) ++
          process_node (.text t2) ≠ "" →
      process_node (.element name attrs
          [.text t1, .element en ea ec, .text t2]) =
        "<" ++ pyLower name ++ ">" ++
          (process_node (.text t1) ++ process_node (.element en ea ec) ++
            process_node (.text t2)) ++ "</" ++ pyLower name ++ ">") := by
  constructor
  · intro ns
    rw [joinStrs_map_process]
  · intro name attrs t1 en ea ec t2 hall hne
    obtain ⟨hig, hmeta, htitle⟩ := allowed_wrap_cases _ hall
    rw [process_node_generic name attrs _ hig hmeta htitle]
    have hpc : process_children [.text t1, .element en ea ec, .text t2] =
        process_node (.text t1) ++ process_node (.element en ea ec) ++
          process_node (.text t2) := by
      simp only [process_children]
      rw [String.append_empty, ← String.append_assoc]
    have hstrip : pyStrip (process_node (.text t1) ++
        process_node (.element en ea ec) ++ process_node (.text t2)) =
        process_node (.text t1) ++ process_node (.element en ea ec) ++
          process_node (.text t2) :=
      pyStrip_append
        (pyStrip_append (pyStrip_process_node _) (pyStrip_process_node _))
        (pyStrip_process_node _)
    rw [hpc, hstrip, if_neg hne, if_pos hall]

/-- Witness for the C8 theorem at a concrete `div` wrapper. -/
theorem ordering_preserved_witness :
    process_node (.element "div" []
      [.text "a", .element "p" [] [.text "b"], .text "c"]) =
      "<" ++ pyLower "div" ++ ">" ++
        (process_node (.text "a") ++ process_node (.element "p" [] [.text "b"]) ++
          process_node (.text "c")) ++ "</" ++ pyLower "div" ++ ">" :=
  ordering_preserved.2 "div" [] "a" "p" [] [.text "b"] "c"
    (by decide) (by decide)

/-- C9: the value of `process_node` never carries leading or trailing
whitespace (it is fixed by trimming), and trimming the concatenation of
reduced results is a no-op when all pieces are non-empty. -/
theorem reduce_trimmed :
    (∀ n : Node, pyStrip (process_node n) = process_node n) ∧
    (∀ ns : List Node, (∀ n ∈ ns, process_node n ≠ "") →
      pyStrip (process_children ns) = process_children ns) :=
  ⟨pyStrip_process_node, fun ns _ => pyStrip_process_children ns⟩

/-- Witness for the C9 theorem at a list of non-empty reductions. -/
theorem reduce_trimmed_witness :
    pyStrip (process_children [.text "a", .text "b"]) =
      process_children [.text "a", .text "b"] :=
  reduce_trimmed.2 [.text "a", .text "b"] (by decide)

/-- C10: attributes never influence the reduction of a non-`meta`
element, and even for arbitrary elements only the `name`, `property` and
`content` attribute values can matter. -/
theorem attrs_noninterference :
    (∀ (name : String) (attrs attrs2 : List (String × String))
        (children : List Node), pyLower name ≠ "meta" →
      process_node (.element name attrs children) =
        process_node (.element name attrs2 children)) ∧
    (∀ (name : String) (attrs attrs2 : List (String × String))
        (children : List Node),
      getAttr attrs "name" = getAttr attrs2 "name" →
      getAttr attrs "property" = getAttr attrs2 "property" →
      getAttr attrs "content" = getAttr attrs2 "content" →
      process_node (.element name attrs children) =
        process_node (.element name attrs2 children)) := by
  constructor
  · intro name attrs attrs2 children hmeta
    by_cases hig : pyLower name ∈ IGNORE_TAGS
    · rw [process_node_ignore name attrs children hig,
        process_node_ignore name attrs2 children hig]
    · by_cases htitle : pyLower name = "title"
      · rw [process_node_title name attrs children htitle,
          process_node_title name attrs2 children htitle]
      · rw [process_node_generic name attrs children hig hmeta htitle,
          process_node_generic name attrs2 children hig hmeta htitle]
  · intro name attrs attrs2 children hn hp hc
    by_cases hig : pyLower name ∈ IGNORE_TAGS
    · rw [process_node_ignore name attrs children hig,
        process_node_ignore name attrs2 children hig]
    · by_cases hmeta : pyLower name = "meta"
      · rw [process_node_meta name attrs children hmeta,
          process_node_meta name attrs2 children hmeta, hn, hp, hc]
      · by_cases htitle : pyLower name = "title"
        · rw [process_node_title name attrs children htitle,
            process_node_title name attrs2 children htitle]
        · rw [process_node_generic name attrs children hig hmeta htitle,
            process_node_generic name attrs2 children hig hmeta htitle]

/-- Witness for the C10 theorem: an anchor keeps the same reduction when
its attributes change. -/
theorem attrs_noninterference_witness :
    process_node (.element "a" [("href", "x"), ("class", "y")] [.text "t"]) =
      process_node (.element "a" [("id", "z")] [.text "t"]) :=
  attrs_noninterference.1 "a" [("href", "x"), ("class", "y")] [("id", "z")]
    [.text "t"] (by decide)

end TildaSite
